import Mathlib

/-!
Verification of the Auto_Class_Assigner repository.

The repository ships a browser frontend (`app/static/script.js`) driving a
class-assignment backend.  The frontend is embedded below directly from the
JavaScript source.  The backend engine (ClassSizePlanner, SnakeSeeder,
BalanceScorer, BalanceRefiner) is not part of the shipped sources, so those
components are modelled from the specification document, as marked in the
doc comments of the corresponding definitions.

Machine arithmetic: the JavaScript code manipulates small integers obtained
from `parseInt` (non-negative form inputs) and `Math.round` of quotients;
these are modelled with `Nat` / `Int` and exact floor division.  Scores are
modelled with `ℚ`.
-/

/-! ## Frontend embedding (from `src/app/static/script.js`) -/

/-- The list of UI section ids, from `script.js` line 10. -/
def sections : List String :=
  ["uploadSection", "configSection", "progressSection", "resultSection", "errorSection"]

/-- Embedding of `showSection` (`script.js` lines 23-25): for every section id
`s` in `sections`, the resulting display style is `"block"` when `s` equals the
requested id and `"none"` otherwise.  The result lists each section id with the
display value assigned to it. -/
def showSection (id : String) : List (String × String) :=
  sections.map (fun s => (s, if s = id then "block" else "none"))

/-- Embedding of the Excel-name test in `handleFolderSelect` (`script.js`
lines 28-31): the lowercased name must end in `.xlsx` or `.xls`.  File names
are modelled as lists of characters so that the suffix test is executable. -/
def isExcelName (name : List Char) : Bool :=
  List.isSuffixOf ['.', 'x', 'l', 's', 'x'] (name.map Char.toLower) ||
  List.isSuffixOf ['.', 'x', 'l', 's'] (name.map Char.toLower)

/-- Result of `handleFolderSelect`: the new `selectedFiles` global, whether the
upload button was revealed, and whether the "no valid Excel file" alert fired. -/
structure SelectOutcome where
  selectedFiles : List (List Char)
  uploadBtnShown : Bool
  alerted : Bool
deriving DecidableEq

/-- Embedding of `handleFolderSelect` (`script.js` lines 27-41): filter the
chosen files down to Excel names; when none remain, alert and return without
revealing the upload button, otherwise reveal it. -/
def handleFolderSelect (files : List (List Char)) : SelectOutcome :=
  if (files.filter isExcelName).length = 0 then ⟨files.filter isExcelName, false, true⟩
  else ⟨files.filter isExcelName, true, false⟩

/-- Observable effect of the download handlers: either only an alert is shown,
or the browser is navigated to a download URL. -/
inductive NavEffect where
  | alertOnly : NavEffect
  | navigate (url : String) : NavEffect
deriving DecidableEq

/-- Embedding of `downloadFile` (`script.js` lines 225-228).  The session id is
`Option String`, `none` standing for JavaScript `null`; `!currentSessionId` is
also true for the empty string, hence the `isEmpty` test. -/
def downloadFile (sid : Option String) (filename : String) : NavEffect :=
  match sid with
  | none => .alertOnly
  | some s => if s.isEmpty then .alertOnly
              else .navigate ("/download/" ++ s ++ "/" ++ filename)

/-- Embedding of `handleDownloadAll` (`script.js` lines 230-233). -/
def handleDownloadAll (sid : Option String) : NavEffect :=
  match sid with
  | none => .alertOnly
  | some s => if s.isEmpty then .alertOnly
              else .navigate ("/download-all/" ++ s)

/-- JavaScript `Math.round (p / q)` for integer `p` and positive integer `q`:
round half toward positive infinity, i.e. the floor of `p / q + 1 / 2`,
computed exactly as `⌊(2p + q) / (2q)⌋` with floor division. -/
def jsRound (p q : Int) : Int := (2 * p + q).fdiv (2 * q)

/-- Outcome of `updatePreview`: either the "class count must not be 0" warning,
or a preview text showing a big-class size and the configured small size. -/
inductive PreviewOutcome where
  | warning : PreviewOutcome
  | preview (bigSize : Int) (smallSize : Nat) : PreviewOutcome
deriving DecidableEq

/-- Embedding of the size computation in `updatePreview` (`script.js` lines
135-147): when `bigCount + smallCount = 0` a warning is shown; otherwise the
shown big size is `Math.round(remaining / bigCount)` (0 if there is no big
class) where `remaining = student_count - smallCount * smallSize` when there
are small classes, and `Math.round(student_count / bigCount)` otherwise. -/
def updatePreview (studentCount bigCount smallCount smallSize : Nat) : PreviewOutcome :=
  if bigCount + smallCount = 0 then .warning
  else
    let bigSize : Int :=
      if 0 < smallCount then
        (if 0 < bigCount then jsRound ((studentCount : Int) - smallCount * smallSize) bigCount
         else 0)
      else jsRound studentCount bigCount
    .preview bigSize smallSize

/-! ## ClassSizePlanner (modelled from the spec) -/

/-- Per-grade class-size configuration, from spec §4.1 / §6. -/
structure SizeConfig where
  bigCount : Nat
  smallCount : Nat
  smallSize : Nat
deriving DecidableEq

/-- Configuration errors of the planner, from spec §4.1 and §7. -/
inductive ConfigError where
  | noClasses : ConfigError
  | smallOverflow : ConfigError
  | leftover : ConfigError
deriving DecidableEq

/-- Distribute `k` extra seats, one each, to the first `k` classes in order
(spec §4.1, remainder distribution). -/
def distributeExtra : List Nat → Nat → List Nat
  | l, 0 => l
  | [], _ + 1 => []
  | s :: rest, k + 1 => (s + 1) :: distributeExtra rest k

/-- Modelled from the spec: the ClassSizePlanner is not part of the shipped
sources; this is the base size list of §4.1 before remainder distribution.
Fails with `ConfigError.noClasses` when there are no target classes, with
`ConfigError.smallOverflow` when the small classes alone would overflow the
grade, and with `ConfigError.leftover` when there are no big classes and the
students do not fit exactly into the small classes.  Big classes come first,
small classes after, and the big size is the floor of the quotient. -/
def baseSizes (studentCount : Nat) (cfg : SizeConfig) : Except ConfigError (List Nat) :=
  if cfg.bigCount + cfg.smallCount = 0 then .error .noClasses
  else if 0 < cfg.smallCount ∧ studentCount < cfg.smallCount * cfg.smallSize then
    .error .smallOverflow
  else if 0 < cfg.smallCount then
    if 0 < cfg.bigCount then
      .ok (List.replicate cfg.bigCount
            ((studentCount - cfg.smallCount * cfg.smallSize) / cfg.bigCount) ++
           List.replicate cfg.smallCount cfg.smallSize)
    else if studentCount - cfg.smallCount * cfg.smallSize = 0 then
      .ok (List.replicate cfg.smallCount cfg.smallSize)
    else .error .leftover
  else .ok (List.replicate cfg.bigCount (studentCount / cfg.bigCount))

/-- Modelled from the spec: full ClassSizePlanner of §4.1 — base sizes followed
by remainder distribution, one extra seat to each of the first
`studentCount - total_target` classes in order (big classes first, since the
base list puts big classes first). -/
def classSizePlanner (studentCount : Nat) (cfg : SizeConfig) : Except ConfigError (List Nat) :=
  match baseSizes studentCount cfg with
  | .error e => .error e
  | .ok sizes => .ok (distributeExtra sizes (studentCount - sizes.sum))

/-! ## Data model of the assignment engine (modelled from the spec, §3) -/

/-- Modelled from the spec: a student record — stable id, display name, grade,
originating class, and the per-subject score map (spec §3).  Scores are exact
rationals. -/
structure StudentRecord where
  id : Nat
  name : String
  grade : String
  origClass : Nat
  scores : List (String × ℚ)
deriving DecidableEq

/-- Modelled from the spec: the composite score is the sum of the subject
scores (spec §3, "sum or configured weighted combination"; the unweighted sum
is taken here). -/
def compositeScore (s : StudentRecord) : ℚ := (s.scores.map Prod.snd).sum

/-- Modelled from the spec: a class plan — grade, class index, target size and
the big/small flag (spec §3). -/
structure ClassPlan where
  grade : String
  idx : Nat
  size : Nat
  big : Bool
deriving DecidableEq

/-- An assignment is the graph of the student-id → class-index mapping of
spec §3, one pair per student of the grade. -/
abbrev Assignment := List (Nat × Nat)

/-! ## BalanceScorer (modelled from the spec, §4.3) -/

/-- Modelled from the spec: score of one subject for one student; the spec
leaves the missing-score policy open (§7 DataError, §9), and the zero-fill
policy is fixed here. -/
def lookupScore (s : StudentRecord) (subj : String) : ℚ :=
  (s.scores.lookup subj).getD 0

/-- Modelled from the spec: top-tier percentage `K`, a configuration constant
with a default (spec §4.3); the default is fixed at 10 percent here. -/
def topPercent : Nat := 10

/-- Modelled from the spec: a student is top-tier when its composite score
rank is within the top `topPercent` percent of the grade (spec §3/§4.3);
rank is the number of students with strictly greater composite score. -/
def isTopTier (students : List StudentRecord) (s : StudentRecord) : Bool :=
  decide ((students.filter
    (fun t => decide (compositeScore s < compositeScore t))).length * 100
      < students.length * topPercent)

/-- Ids of the top-tier students of the grade. -/
def topIds (students : List StudentRecord) : List Nat :=
  (students.filter (isTopTier students)).map StudentRecord.id

/-- Ids of the students mapped to class `j` by the assignment. -/
def studentsInClass (a : Assignment) (j : Nat) : List Nat :=
  (a.filter (fun p => p.2 == j)).map Prod.fst

/-- Number of top-tier students mapped to class `j`. -/
def topCount (students : List StudentRecord) (a : Assignment) (j : Nat) : Nat :=
  ((studentsInClass a j).filter (fun i => (topIds students).contains i)).length

/-- Mean of a list of rationals (0 for the empty list, as `ℚ` division by 0
is 0). -/
def listMean (xs : List ℚ) : ℚ := xs.sum / xs.length

/-- Population variance of a list of rationals. -/
def listVariance (xs : List ℚ) : ℚ :=
  ((xs.map (fun x => (x - listMean xs) ^ 2)).sum) / xs.length

/-- Record of student `i` in the roster, by id. -/
def findStudent (students : List StudentRecord) (i : Nat) : Option StudentRecord :=
  students.find? (fun s => s.id == i)

/-- Per-class per-subject mean over the students assigned to class `j`. -/
def classSubjectMean (students : List StudentRecord) (a : Assignment)
    (j : Nat) (subj : String) : ℚ :=
  listMean ((studentsInClass a j).map (fun i =>
    match findStudent students i with
    | some s => lookupScore s subj
    | none => 0))

/-- All subject names occurring in the roster, deduplicated. -/
def allSubjects (students : List StudentRecord) : List String :=
  ((students.map (fun s => s.scores.map Prod.fst)).flatten).dedup

/-- Modelled from the spec: weight of the top-count variance term (§4.3,
equal weighting default). -/
def wTop : ℚ := 1

/-- Modelled from the spec: weight of the subject-mean variance term (§4.3). -/
def wSubject : ℚ := 1

/-- Modelled from the spec: the BalanceScorer objective of §4.3 —
`w_top * var(top_counts) + w_subject * Σ_subjects var(class_means[subject])`,
variances taken across the grade's classes. -/
def balanceScorer (students : List StudentRecord) (plans : List ClassPlan)
    (a : Assignment) : ℚ :=
  wTop * listVariance (plans.map (fun p => (topCount students a p.idx : ℚ))) +
  wSubject * ((allSubjects students).map (fun subj =>
    listVariance (plans.map (fun p => classSubjectMean students a p.idx subj)))).sum

/-! ## SnakeSeeder (modelled from the spec, §4.2) -/

/-- An active class during seeding: its index and its remaining capacity. -/
structure ClassSlot where
  idx : Nat
  cap : Nat
deriving DecidableEq

/-- Modelled from the spec: the secondary tie-break score of §4.2 ("tie-broken
by a secondary subject score"); the spec does not name the subject, so the
first subject of the record is used. -/
def secondaryScore (s : StudentRecord) : ℚ := ((s.scores.map Prod.snd).headD 0)

/-- Modelled from the spec: seeding order of §4.2 — composite score
descending, ties broken by the secondary score descending and finally by
student id ascending, for full determinism. -/
def seedLE (s t : StudentRecord) : Bool :=
  if compositeScore s = compositeScore t then
    (if secondaryScore s = secondaryScore t then decide (s.id ≤ t.id)
     else decide (secondaryScore t < secondaryScore s))
  else decide (compositeScore t < compositeScore s)

/-- The roster in seeding order. -/
def sortStudents (students : List StudentRecord) : List StudentRecord :=
  students.mergeSort seedLE

/-- One serpentine pass (spec §4.2): walk the active classes in order, one
student per visited class; a class whose capacity reaches its target is
dropped from the surviving active list.  Returns the assignments made, the
students still to place, and the surviving active classes in traversal
order. -/
def seedPass : List StudentRecord → List ClassSlot →
    List (Nat × Nat) × List StudentRecord × List ClassSlot
  | [], cs => ([], [], cs)
  | s :: ss, [] => ([], s :: ss, [])
  | s :: ss, c :: cs =>
    let r := seedPass ss cs
    ((s.id, c.idx) :: r.1, r.2.1,
      if c.cap ≤ 1 then r.2.2 else ⟨c.idx, c.cap - 1⟩ :: r.2.2)

/-- Serpentine seeding loop (spec §4.2): passes alternate direction, which is
realized by reversing the surviving active list between passes ("direction
flips at the end of the previously active range").  `fuel` bounds the number
of passes; each pass with students and active classes left places at least
one student, so `students.length` passes always suffice. -/
def seedLoop : Nat → List StudentRecord → List ClassSlot → List (Nat × Nat)
  | 0, _, _ => []
  | _ + 1, [], _ => []
  | _ + 1, _ :: _, [] => []
  | fuel + 1, s :: ss, c :: cs =>
    let r := seedPass (s :: ss) (c :: cs)
    r.1 ++ seedLoop fuel r.2.1 r.2.2.reverse

/-- The classes that take part in seeding: those with a positive target size,
in plan order, with their target as initial capacity. -/
def activeSlots (plans : List ClassPlan) : List ClassSlot :=
  (plans.filter (fun p => p.size != 0)).map (fun p => ⟨p.idx, p.size⟩)

/-- Modelled from the spec: the SnakeSeeder of §4.2 — sort the roster by
`seedLE` and distribute it over the classes serpentine-wise. -/
def snakeSeeder (students : List StudentRecord) (plans : List ClassPlan) : Assignment :=
  seedLoop students.length (sortStudents students) (activeSlots plans)

/-! ## BalanceRefiner (modelled from the spec, §4.4) -/

/-- Exchange the class assignments of the students at positions `i` and `j`
(a size-preserving swap, spec §4.4); out-of-range positions leave the
assignment unchanged. -/
def applySwap (a : Assignment) (i j : Nat) : Assignment :=
  match a[i]?, a[j]? with
  | some p, some q => (a.set i (p.1, q.2)).set j (q.1, p.2)
  | _, _ => a

/-- All candidate position pairs `(i, j)` with `i < j < n`, in a fixed scan
order (spec §4.4, "scanning all cross-class pairs in a full pass"; swapping a
same-class pair never changes the objective, so such pairs are never
committed). -/
def allPairs (n : Nat) : List (Nat × Nat) :=
  (List.range n).flatMap (fun i =>
    ((List.range n).filter (fun j => decide (i < j))).map (fun j => (i, j)))

/-- One full pass of the refiner (spec §4.4): try every candidate pair in scan
order; commit a swap exactly when it strictly decreases the objective `f`;
the flag records whether any swap of this pass was committed. -/
def tryPairs (f : Assignment → ℚ) :
    List (Nat × Nat) → Assignment → Bool → Assignment × Bool
  | [], a, imp => (a, imp)
  | p :: ps, a, imp =>
    let a' := applySwap a p.1 p.2
    if f a' < f a then tryPairs f ps a' true else tryPairs f ps a imp

/-- Modelled from the spec: the injectable pseudo-random source of §4.4/§9,
advanced once per round; a standard linear congruential step.  Under the
full-pass scan strategy (the spec's preferred one, §4.4) the stream does not
influence the scan order. -/
def lcg (seed : Nat) : Nat := (1103515245 * seed + 12345) % 2147483648

/-- Modelled from the spec: the BalanceRefiner loop of §4.4 — repeat full
passes while a pass committed an improving swap, stopping at a local optimum
(a pass with no improving swap) or when the round budget `fuel` runs out. -/
def refineLoop (f : Assignment → ℚ) : Nat → Nat → Assignment → Assignment
  | 0, _, a => a
  | fuel + 1, seed, a =>
    let r := tryPairs f (allPairs a.length) a false
    if r.2 then refineLoop f fuel (lcg seed) r.1 else r.1

/-- Modelled from the spec: the BalanceRefiner of §4.4 instantiated with the
BalanceScorer objective. -/
def balanceRefiner (students : List StudentRecord) (plans : List ClassPlan)
    (fuel seed : Nat) (a : Assignment) : Assignment :=
  refineLoop (balanceScorer students plans) fuel seed a

/-- The per-grade pipeline SnakeSeeder → BalanceRefiner (spec §2). -/
def assignPipeline (students : List StudentRecord) (plans : List ClassPlan)
    (fuel seed : Nat) : Assignment :=
  balanceRefiner students plans fuel seed (snakeSeeder students plans)

/-- A candidate assignment is a local optimum for `f` when no candidate swap
strictly decreases the objective (spec §4.4). -/
def isLocalOptimum (f : Assignment → ℚ) (a : Assignment) : Prop :=
  ∀ p ∈ allPairs a.length, ¬ f (applySwap a p.1 p.2) < f a

/-- State of the refiner state machine (spec §4.4): `running` carries the
remaining round budget, the PRNG state and the current assignment;
`finished` is the `Done` state carrying the final assignment. -/
inductive RefinerState where
  | running (fuel seed : Nat) (a : Assignment)
  | finished (a : Assignment)
deriving DecidableEq

/-- Modelled from the spec: one transition of the refiner state machine of
§4.4 — `BudgetExhausted` when the round budget is 0, `Improved` when the full
pass committed a swap, `NoImprovement` (local optimum, transition to `Done`)
when it did not. -/
inductive RefineStep (f : Assignment → ℚ) : RefinerState → RefinerState → Prop
  | budget (seed : Nat) (a : Assignment) :
      RefineStep f (.running 0 seed a) (.finished a)
  | improved {fuel seed : Nat} {a a' : Assignment} :
      tryPairs f (allPairs a.length) a false = (a', true) →
      RefineStep f (.running (fuel + 1) seed a) (.running fuel (lcg seed) a')
  | optimum {fuel seed : Nat} {a a' : Assignment} :
      tryPairs f (allPairs a.length) a false = (a', false) →
      RefineStep f (.running (fuel + 1) seed a) (.finished a')

/-! ## Lemmas about the planner and the preview -/

theorem distributeExtra_length : ∀ (l : List Nat) (k : Nat),
    (distributeExtra l k).length = l.length := by
  intro l k
  induction l generalizing k with
  | nil => cases k <;> rfl
  | cons s rest ih => cases k with
    | zero => rfl
    | succ k => simp [distributeExtra, ih]

theorem distributeExtra_sum : ∀ (l : List Nat) (k : Nat), k ≤ l.length →
    (distributeExtra l k).sum = l.sum + k := by
  intro l k
  induction l generalizing k with
  | nil =>
    intro h
    have hk : k = 0 := by simpa using h
    subst hk; rfl
  | cons s rest ih =>
    intro h
    cases k with
    | zero => rfl
    | succ k =>
      simp only [distributeExtra, List.sum_cons]
      have := ih k (by simpa using h)
      omega

theorem distributeExtra_getElem : ∀ (l : List Nat) (k i : Nat) (h : i < l.length)
    (h2 : i < (distributeExtra l k).length),
    (distributeExtra l k)[i] = if i < k then l[i] + 1 else l[i] := by
  intro l k
  induction l generalizing k with
  | nil => intro i h _; simp at h
  | cons s rest ih =>
    intro i h h2
    cases k with
    | zero => simp [distributeExtra]
    | succ k =>
      cases i with
      | zero => simp [distributeExtra]
      | succ i =>
        simp only [distributeExtra, List.getElem_cons_succ]
        rw [ih k i (by simpa using h)
          (by rw [distributeExtra_length]; simpa using h)]
        simp [Nat.succ_lt_succ_iff]

/-- Whenever `baseSizes` succeeds, the produced base total is at most the
student count and the deficit is less than the number of classes (so the
remainder distribution has room). -/
theorem baseSizes_sum_le (n : Nat) (cfg : SizeConfig) (base : List Nat)
    (h : baseSizes n cfg = .ok base) :
    base.sum ≤ n ∧ n - base.sum ≤ base.length := by
  unfold baseSizes at h
  split at h
  · exact absurd h (by simp)
  · split at h
    · exact absurd h (by simp)
    · split at h
      · split at h
        · rename_i hcls hov hsc hbc
          injection h with h
          subst h
          have hfit : cfg.smallCount * cfg.smallSize ≤ n := by
            rcases Nat.lt_or_ge n (cfg.smallCount * cfg.smallSize) with hlt | hge
            · exact absurd ⟨hsc, hlt⟩ hov
            · exact hge
          have hdiv : cfg.bigCount * ((n - cfg.smallCount * cfg.smallSize) / cfg.bigCount)
              ≤ n - cfg.smallCount * cfg.smallSize := Nat.mul_div_le _ _
          have hmod := Nat.mod_add_div (n - cfg.smallCount * cfg.smallSize) cfg.bigCount
          have hmlt := Nat.mod_lt (n - cfg.smallCount * cfg.smallSize) hbc
          simp only [List.sum_append, List.sum_replicate, smul_eq_mul, List.length_append,
            List.length_replicate]
          omega
        · split at h
          · rename_i hcls hov hsc hbc hrem
            injection h with h
            subst h
            have hfit : cfg.smallCount * cfg.smallSize ≤ n := by
              rcases Nat.lt_or_ge n (cfg.smallCount * cfg.smallSize) with hlt | hge
              · exact absurd ⟨hsc, hlt⟩ hov
              · exact hge
            simp only [List.sum_replicate, smul_eq_mul, List.length_replicate]
            omega
          · exact absurd h (by simp)
      · rename_i hcls hov hsc
        injection h with h
        subst h
        have hbc : 0 < cfg.bigCount := by omega
        have hdiv : cfg.bigCount * (n / cfg.bigCount) ≤ n := Nat.mul_div_le _ _
        have hmod := Nat.mod_add_div n cfg.bigCount
        have hmlt := Nat.mod_lt n hbc
        simp only [List.sum_replicate, smul_eq_mul, List.length_replicate]
        omega

/-- Whenever the planner succeeds, the produced sizes sum exactly to the
student count. -/
theorem classSizePlanner_sum (n : Nat) (cfg : SizeConfig) (sizes : List Nat)
    (h : classSizePlanner n cfg = .ok sizes) : sizes.sum = n := by
  unfold classSizePlanner at h
  split at h
  · exact absurd h (by simp)
  · rename_i base hbase
    injection h with h
    subst h
    obtain ⟨hle, hdef⟩ := baseSizes_sum_le n cfg base hbase
    rw [distributeExtra_sum base (n - base.sum) hdef]
    omega

/-- Floor-division bounds for the JavaScript rounded quotient: for a positive
divisor, `Math.round(p / q)` is the floor of the quotient or one more. -/
theorem jsRound_bounds (p q : Int) (hq : 0 < q) :
    p.fdiv q ≤ jsRound p q ∧ jsRound p q ≤ p.fdiv q + 1 := by
  unfold jsRound
  rw [Int.fdiv_eq_ediv p (by omega), Int.fdiv_eq_ediv _ (by omega : (0 : Int) ≤ 2 * q)]
  have hmod := Int.ediv_add_emod p q
  have hmn : 0 ≤ p % q := Int.emod_nonneg p (by omega)
  have hml : p % q < q := Int.emod_lt_of_pos p hq
  have key : (2 * p + q) / (2 * q) = p / q + (2 * (p % q) + q) / (2 * q) := by
    have h2 : 2 * p + q = (2 * (p % q) + q) + (2 * q) * (p / q) := by ring_nf; omega
    rw [h2, Int.add_mul_ediv_left _ _ (by omega : (2 : Int) * q ≠ 0)]
    ring
  rcases lt_or_ge (2 * (p % q) + q) (2 * q) with hlt | hge
  · have h0 : (2 * (p % q) + q) / (2 * q) = 0 :=
      Int.ediv_eq_zero_of_lt (by omega) hlt
    omega
  · have h1 : (2 * (p % q) + q) / (2 * q) = 1 := by
      have h2 : 2 * (p % q) + q = ((2 * (p % q) + q) - 2 * q) + (2 * q) * 1 := by ring
      rw [h2, Int.add_mul_ediv_left _ _ (by omega : (2 : Int) * q ≠ 0),
        Int.ediv_eq_zero_of_lt (by omega) (by omega)]
      ring
    omega

/-! ## Claims C1, C5, C6, C7 -/

/-- C1 counterexample: the claim says the per-class big size shown by the
preview is the floor of the quotient, never the rounded value; but at
`student_count = 101`, `big_count = 2`, `small_count = 0` the code
(`script.js` line 146, `Math.round`) shows 51 while the floor of the quotient
is 50. -/
theorem updatePreview_floor_cex :
    updatePreview 101 2 0 0 = .preview 51 0 ∧ (101 : Int).fdiv 2 = 50 ∧ (51 : Int) ≠ 50 := by
  decide

/-- C1 (amended): for every grade with `big_count > 0`, the big size shown by
the class-size preview is `Math.round` (round half up), not the floor, of
`remaining / big_count` when `small_count > 0` (with
`remaining = student_count - small_count * small_size`) and of
`student_count / big_count` when `small_count = 0`; the rounded value always
lies between the floor of the quotient and the floor plus one. -/
theorem updatePreview_rounded_size (n bc sc ss : Nat) (hbc : 0 < bc) :
    (0 < sc →
      updatePreview n bc sc ss = .preview (jsRound ((n : Int) - sc * ss) bc) ss ∧
      ((n : Int) - sc * ss).fdiv bc ≤ jsRound ((n : Int) - sc * ss) bc ∧
      jsRound ((n : Int) - sc * ss) bc ≤ ((n : Int) - sc * ss).fdiv bc + 1) ∧
    (sc = 0 →
      updatePreview n bc sc ss = .preview (jsRound n bc) ss ∧
      (n : Int).fdiv bc ≤ jsRound n bc ∧ jsRound n bc ≤ (n : Int).fdiv bc + 1) := by
  have hbcz : (0 : Int) < (bc : Int) := by exact_mod_cast hbc
  constructor
  · intro hsc
    refine ⟨?_, jsRound_bounds _ _ hbcz⟩
    unfold updatePreview
    rw [if_neg (by omega), if_pos hsc, if_pos hbc]
  · intro hsc
    refine ⟨?_, jsRound_bounds _ _ hbcz⟩
    unfold updatePreview
    rw [if_neg (by omega), if_neg (by omega)]

/-- C1 witness: the amended statement at `student_count = 101`,
`big_count = 2`, `small_count = 0`. -/
theorem updatePreview_rounded_size_witness :
    updatePreview 101 2 0 0 = .preview (jsRound 101 2) 0 ∧
    (101 : Int).fdiv 2 ≤ jsRound 101 2 ∧ jsRound 101 2 ≤ (101 : Int).fdiv 2 + 1 :=
  (updatePreview_rounded_size 101 2 0 0 (by decide)).2 rfl

/-- C5: whenever the planner succeeds the produced sizes sum exactly to the
student count; each produced size is its base (configured) size or that size
plus one extra seat, extras going to the first classes in order (big classes
first, as the base list places big classes first); and
`student_count = 101, big_count = 2, small_count = 0` yields sizes
`[51, 50]`. -/
theorem classSizePlanner_distributes_remainder :
    (∀ (n : Nat) (cfg : SizeConfig) (sizes : List Nat),
        classSizePlanner n cfg = .ok sizes → sizes.sum = n) ∧
    (∀ (n : Nat) (cfg : SizeConfig) (base sizes : List Nat),
        baseSizes n cfg = .ok base → classSizePlanner n cfg = .ok sizes →
        sizes.length = base.length ∧
        ∀ (i : Nat) (hs : i < sizes.length) (hb : i < base.length),
          sizes[i] = base[i] ∨ sizes[i] = base[i] + 1) ∧
    classSizePlanner 101 ⟨2, 0, 0⟩ = .ok [51, 50] := by
  refine ⟨classSizePlanner_sum, ?_, rfl⟩
  intro n cfg base sizes hbase hplan
  unfold classSizePlanner at hplan
  rw [hbase] at hplan
  injection hplan with hplan
  subst hplan
  refine ⟨distributeExtra_length _ _, ?_⟩
  intro i hs hb
  rw [distributeExtra_getElem base (n - base.sum) i hb hs]
  split
  · right; rfl
  · left; rfl

/-- C5 witness: Example 3 of the spec, `student_count = 90`, one big class and
one small class of 20. -/
theorem classSizePlanner_distributes_remainder_witness :
    classSizePlanner 90 ⟨1, 1, 20⟩ = .ok [70, 20] ∧ ([70, 20] : List Nat).sum = 90 :=
  ⟨rfl, classSizePlanner_distributes_remainder.1 90 ⟨1, 1, 20⟩ [70, 20] rfl⟩

/-- C6: a configuration with no target classes is rejected: the planner fails
with `ConfigError.noClasses` and the grade-config preview shows the warning
instead of a size preview. -/
theorem config_zero_classes_rejected (n ss : Nat) (cfg : SizeConfig)
    (h : cfg.bigCount + cfg.smallCount = 0) :
    classSizePlanner n cfg = .error .noClasses ∧
    updatePreview n cfg.bigCount cfg.smallCount ss = .warning := by
  constructor
  · unfold classSizePlanner baseSizes
    rw [if_pos h]
  · unfold updatePreview
    rw [if_pos h]

/-- C6 witness: the zero-class configuration at `student_count = 7`. -/
theorem config_zero_classes_rejected_witness :
    classSizePlanner 7 ⟨0, 0, 3⟩ = .error .noClasses ∧
    updatePreview 7 0 0 5 = .warning :=
  config_zero_classes_rejected 7 5 ⟨0, 0, 3⟩ rfl

/-- C7: a configuration whose small classes alone would overflow the grade
(`small_count > 0` and `small_count * small_size > student_count`) makes the
planner fail with `ConfigError.smallOverflow`; no plan is produced. -/
theorem config_small_overflow_rejected (n : Nat) (cfg : SizeConfig)
    (h1 : 0 < cfg.smallCount) (h2 : n < cfg.smallCount * cfg.smallSize) :
    classSizePlanner n cfg = .error .smallOverflow := by
  unfold classSizePlanner baseSizes
  rw [if_neg (by omega), if_pos ⟨h1, h2⟩]

/-- C7 witness: 10 students, three small classes of five. -/
theorem config_small_overflow_rejected_witness :
    classSizePlanner 10 ⟨1, 3, 5⟩ = .error .smallOverflow :=
  config_small_overflow_rejected 10 ⟨1, 3, 5⟩ (by decide) (by decide)

/-! ## Generic lemmas about the refiner loop -/

theorem tryPairs_le (f : Assignment → ℚ) :
    ∀ (ps : List (Nat × Nat)) (a : Assignment) (imp : Bool),
      f (tryPairs f ps a imp).1 ≤ f a := by
  intro ps
  induction ps with
  | nil => intro a imp; exact le_refl _
  | cons p ps ih =>
    intro a imp
    simp only [tryPairs]
    split
    · rename_i hlt
      exact le_trans (ih _ true) (le_of_lt hlt)
    · exact ih a imp

theorem tryPairs_flag_true (f : Assignment → ℚ) :
    ∀ (ps : List (Nat × Nat)) (a : Assignment), (tryPairs f ps a true).2 = true := by
  intro ps
  induction ps with
  | nil => intro a; rfl
  | cons p ps ih =>
    intro a
    simp only [tryPairs]
    split
    · exact ih _
    · exact ih a

/-- A pass that commits no swap leaves the assignment unchanged and certifies
that no candidate swap of the input assignment is improving. -/
theorem tryPairs_no_improvement (f : Assignment → ℚ) :
    ∀ (ps : List (Nat × Nat)) (a : Assignment), (tryPairs f ps a false).2 = false →
      (tryPairs f ps a false).1 = a ∧
      ∀ p ∈ ps, ¬ f (applySwap a p.1 p.2) < f a := by
  intro ps
  induction ps with
  | nil => intro a _; exact ⟨rfl, by simp⟩
  | cons p ps ih =>
    intro a hflag
    simp only [tryPairs] at hflag ⊢
    split at hflag
    · rw [tryPairs_flag_true f ps _] at hflag
      exact absurd hflag (by simp)
    · rename_i hnlt
      split
      · exact absurd ‹f (applySwap a p.1 p.2) < f a› hnlt
      · obtain ⟨heq, hall⟩ := ih a hflag
        refine ⟨heq, ?_⟩
        intro q hq
        rcases List.mem_cons.mp hq with hq | hq
        · subst hq; exact hnlt
        · exact hall q hq

/-- A pass that commits a swap strictly decreases the objective. -/
theorem tryPairs_improvement_lt (f : Assignment → ℚ) :
    ∀ (ps : List (Nat × Nat)) (a : Assignment), (tryPairs f ps a false).2 = true →
      f (tryPairs f ps a false).1 < f a := by
  intro ps
  induction ps with
  | nil => intro a h; exact absurd h (by simp [tryPairs])
  | cons p ps ih =>
    intro a hflag
    simp only [tryPairs] at hflag ⊢
    split at hflag <;> split
    · rename_i h1 h2
      exact lt_of_le_of_lt (tryPairs_le f ps _ true) h1
    · rename_i h1 h2
      exact absurd h1 h2
    · rename_i h1 h2
      exact absurd h2 h1
    · exact ih a hflag

theorem refineLoop_le (f : Assignment → ℚ) :
    ∀ (fuel seed : Nat) (a : Assignment), f (refineLoop f fuel seed a) ≤ f a := by
  intro fuel
  induction fuel with
  | zero => intro seed a; exact le_refl _
  | succ fuel ih =>
    intro seed a
    simp only [refineLoop]
    split
    · exact le_trans (ih _ _) (tryPairs_le f _ a false)
    · exact tryPairs_le f _ a false

/-- With a positive round budget, the refined objective can equal the seeded
objective only when the seeded assignment is already a local optimum. -/
theorem refineLoop_eq_imp_localOptimum (f : Assignment → ℚ) (fuel seed : Nat)
    (a : Assignment) (hf : 0 < fuel)
    (heq : f (refineLoop f fuel seed a) = f a) : isLocalOptimum f a := by
  cases fuel with
  | zero => exact absurd hf (by simp)
  | succ fuel =>
    simp only [refineLoop] at heq
    rcases hb : (tryPairs f (allPairs a.length) a false).2 with hfalse | htrue
    · rw [hb] at heq
      simp only [Bool.false_eq_true, if_false] at heq
      obtain ⟨_, hall⟩ := tryPairs_no_improvement f (allPairs a.length) a hb
      exact hall
    · rw [hb] at heq
      simp only [if_true] at heq
      have h1 := tryPairs_improvement_lt f (allPairs a.length) a hb
      have h2 := refineLoop_le f fuel (lcg seed) (tryPairs f (allPairs a.length) a false).1
      exact absurd heq (by exact ne_of_lt (lt_of_le_of_lt h2 h1))

/-! ## Claim C3 -/

/-- C3: the BalanceScorer objective of the refined assignment is at most the
objective of the input (seeded) assignment; with a positive round budget,
equality forces the seeded assignment to be a local optimum already; and every
pass that commits a swap strictly decreases the objective (so the refiner is
monotonically improving and cannot oscillate). -/
theorem balanceRefiner_monotone (students : List StudentRecord)
    (plans : List ClassPlan) (fuel seed : Nat) (a : Assignment) (hf : 0 < fuel) :
    balanceScorer students plans (balanceRefiner students plans fuel seed a) ≤
      balanceScorer students plans a ∧
    (balanceScorer students plans (balanceRefiner students plans fuel seed a) =
        balanceScorer students plans a → isLocalOptimum (balanceScorer students plans) a) ∧
    (∀ (b b' : Assignment),
        tryPairs (balanceScorer students plans) (allPairs b.length) b false = (b', true) →
        balanceScorer students plans b' < balanceScorer students plans b) := by
  refine ⟨refineLoop_le _ fuel seed a, ?_, ?_⟩
  · exact refineLoop_eq_imp_localOptimum _ fuel seed a hf
  · intro b b' htp
    have h := tryPairs_improvement_lt (balanceScorer students plans) (allPairs b.length) b
      (by rw [htp])
    rwa [htp] at h

/-- C3 witness: the empty grade with one refinement round. -/
theorem balanceRefiner_monotone_witness :
    balanceScorer [] [] (balanceRefiner [] [] 1 0 []) ≤ balanceScorer [] [] [] :=
  (balanceRefiner_monotone [] [] 1 0 [] (by decide)).1

/-! ## Claim C4: determinism of the refiner state machine -/

/-- The refiner step relation is deterministic: a state has at most one
successor. -/
theorem refineStep_deterministic (f : Assignment → ℚ) {s t t' : RefinerState}
    (h1 : RefineStep f s t) (h2 : RefineStep f s t') : t = t' := by
  cases h1 with
  | budget seed a =>
    cases h2 with
    | budget => rfl
  | improved h1eq =>
    cases h2 with
    | improved h2eq => rw [h1eq] at h2eq; injection h2eq with ha _; rw [ha]
    | optimum h2eq => rw [h1eq] at h2eq; injection h2eq with _ hb; exact absurd hb (by simp)
  | optimum h1eq =>
    cases h2 with
    | improved h2eq => rw [h1eq] at h2eq; injection h2eq with _ hb; exact absurd hb (by simp)
    | optimum h2eq => rw [h1eq] at h2eq; injection h2eq with ha _; rw [ha]

/-- `finished` states are terminal. -/
theorem refineStep_finished_no_succ (f : Assignment → ℚ) (a : Assignment)
    (t : RefinerState) (h : RefineStep f (.finished a) t) : False := by
  cases h

/-- Unique final state: two complete runs from the same state end in the same
assignment. -/
theorem refineRun_unique (f : Assignment → ℚ) :
    ∀ {s : RefinerState} {a₁ a₂ : Assignment},
      Relation.ReflTransGen (RefineStep f) s (.finished a₁) →
      Relation.ReflTransGen (RefineStep f) s (.finished a₂) → a₁ = a₂ := by
  intro s a₁ a₂ h1
  induction h1 using Relation.ReflTransGen.head_induction_on with
  | refl =>
    intro h2
    rcases Relation.ReflTransGen.cases_head h2 with heq | ⟨c, hstep, _⟩
    · cases heq; rfl
    · exact absurd hstep (by intro h; exact refineStep_finished_no_succ f a₁ c h)
  | head hstep _ ih =>
    intro h2
    rcases Relation.ReflTransGen.cases_head h2 with heq | ⟨c, hstep2, hrest⟩
    · subst heq; exact absurd hstep (by intro h; exact refineStep_finished_no_succ f a₂ _ h)
    · have := refineStep_deterministic f hstep hstep2
      subst this
      exact ih hrest

/-- The functional refiner loop is one complete run of the state machine:
from `running fuel seed a` the machine reaches `finished` with exactly
`refineLoop f fuel seed a` (so complete runs exist for every input). -/
theorem refineLoop_run (f : Assignment → ℚ) :
    ∀ (fuel seed : Nat) (a : Assignment),
      Relation.ReflTransGen (RefineStep f) (.running fuel seed a)
        (.finished (refineLoop f fuel seed a)) := by
  intro fuel
  induction fuel with
  | zero => intro seed a; exact Relation.ReflTransGen.single (RefineStep.budget seed a)
  | succ fuel ih =>
    intro seed a
    rcases hb : (tryPairs f (allPairs a.length) a false).2 with hfalse | htrue
    · have heq : tryPairs f (allPairs a.length) a false =
          ((tryPairs f (allPairs a.length) a false).1,
           (tryPairs f (allPairs a.length) a false).2) := rfl
      rw [hb] at heq
      have : refineLoop f (fuel + 1) seed a = (tryPairs f (allPairs a.length) a false).1 := by
        simp only [refineLoop, hb, Bool.false_eq_true, if_false]
      rw [this]
      exact Relation.ReflTransGen.single (RefineStep.optimum heq)
    · have heq : tryPairs f (allPairs a.length) a false =
          ((tryPairs f (allPairs a.length) a false).1,
           (tryPairs f (allPairs a.length) a false).2) := rfl
      rw [hb] at heq
      have : refineLoop f (fuel + 1) seed a =
          refineLoop f fuel (lcg seed) (tryPairs f (allPairs a.length) a false).1 := by
        simp only [refineLoop, hb, if_true]
      rw [this]
      exact Relation.ReflTransGen.head (RefineStep.improved heq) (ih _ _)

/-- C4: the refiner is a deterministic function of the student records, the
class plans and the PRNG seed — any two complete runs of the refiner state
machine started from the seeded assignment of the same inputs with the same
round budget and seed finish with the same final assignment. -/
theorem assignPipeline_deterministic (students : List StudentRecord)
    (plans : List ClassPlan) (fuel seed : Nat) (a₁ a₂ : Assignment)
    (h₁ : Relation.ReflTransGen (RefineStep (balanceScorer students plans))
      (.running fuel seed (snakeSeeder students plans)) (.finished a₁))
    (h₂ : Relation.ReflTransGen (RefineStep (balanceScorer students plans))
      (.running fuel seed (snakeSeeder students plans)) (.finished a₂)) :
    a₁ = a₂ :=
  refineRun_unique (balanceScorer students plans) h₁ h₂

/-- C4 witness: a concrete complete run on the empty grade, used twice. -/
theorem assignPipeline_deterministic_witness :
    Relation.ReflTransGen (RefineStep (balanceScorer [] []))
      (.running 1 0 (snakeSeeder [] [])) (.finished []) ∧ ([] : Assignment) = [] := by
  have run : Relation.ReflTransGen (RefineStep (balanceScorer [] []))
      (.running 1 0 (snakeSeeder [] [])) (.finished []) :=
    Relation.ReflTransGen.single (RefineStep.optimum rfl)
  exact ⟨run, assignPipeline_deterministic [] [] 1 0 [] [] run run⟩

/-! ## Swap preservation: the refiner only exchanges class labels -/

/-- A swap never changes the student-id column of the assignment. -/
theorem applySwap_map_fst (a : Assignment) (i j : Nat) :
    (applySwap a i j).map Prod.fst = a.map Prod.fst := by
  unfold applySwap
  split
  · rename_i p q hp hq
    obtain ⟨hi, hpi⟩ := List.getElem?_eq_some_iff.mp hp
    obtain ⟨hj, hqj⟩ := List.getElem?_eq_some_iff.mp hq
    apply List.ext_getElem
    · simp
    · intro k hk1 hk2
      simp only [List.getElem_map]
      by_cases hkj : k = j
      · subst hkj
        rw [List.getElem_set_self (by simpa using hj)]
        rw [← hqj]
      · rw [List.getElem_set_ne (fun h => hkj h.symm)]
        by_cases hki : k = i
        · subst hki
          rw [List.getElem_set_self (by simpa using hi)]
          rw [← hpi]
        · rw [List.getElem_set_ne (fun h => hki h.symm)]
  · rfl

/-- A swap of two distinct positions permutes the class column: every class
keeps its number of occurrences. -/
theorem applySwap_count_snd (a : Assignment) (i j v : Nat) (hij : i ≠ j) :
    ((applySwap a i j).map Prod.snd).count v = (a.map Prod.snd).count v := by
  unfold applySwap
  split
  · rename_i p q hp hq
    obtain ⟨hi, hpi⟩ := List.getElem?_eq_some_iff.mp hp
    obtain ⟨hj, hqj⟩ := List.getElem?_eq_some_iff.mp hq
    rw [List.map_set, List.map_set]
    dsimp only
    have hilen : i < (a.map Prod.snd).length := by simpa using hi
    have hjlen : j < ((a.map Prod.snd).set i q.2).length := by simpa using hj
    have hmi : (a.map Prod.snd)[i] = p.2 := by
      rw [List.getElem_map, hpi]
    have hmj : ((a.map Prod.snd).set i q.2)[j] = q.2 := by
      rw [List.getElem_set_ne hij, List.getElem_map, hqj]
    rw [List.count_set _ _ _ _ (by simpa using hj),
        List.count_set _ _ _ _ (by simpa using hi)]
    rw [hmi, hmj]
    have hone : (if (p.2 == v) = true then 1 else 0) ≤ (a.map Prod.snd).count v := by
      split
      · rename_i hb
        rw [← beq_iff_eq.mp hb, ← hmi]
        exact List.count_pos_iff.mpr (List.getElem_mem _)
      · exact Nat.zero_le _
    split_ifs at hone ⊢ <;> omega
  · rfl

/-- A full refiner pass never changes the student-id column. -/
theorem tryPairs_map_fst (f : Assignment → ℚ) :
    ∀ (ps : List (Nat × Nat)) (a : Assignment) (imp : Bool),
      ((tryPairs f ps a imp).1).map Prod.fst = a.map Prod.fst := by
  intro ps
  induction ps with
  | nil => intro a imp; rfl
  | cons p ps ih =>
    intro a imp
    simp only [tryPairs]
    split
    · rw [ih _ true, applySwap_map_fst]
    · exact ih a imp

/-- A full refiner pass over position pairs with distinct components keeps
every class's student count. -/
theorem tryPairs_count_snd (f : Assignment → ℚ) :
    ∀ (ps : List (Nat × Nat)) (a : Assignment) (imp : Bool) (v : Nat),
      (∀ p ∈ ps, p.1 ≠ p.2) →
      (((tryPairs f ps a imp).1).map Prod.snd).count v = (a.map Prod.snd).count v := by
  intro ps
  induction ps with
  | nil => intro a imp v _; rfl
  | cons p ps ih =>
    intro a imp v hps
    simp only [tryPairs]
    split
    · rw [ih _ true v (fun q hq => hps q (List.mem_cons_of_mem p hq)),
        applySwap_count_snd a p.1 p.2 v (hps p (List.mem_cons_self p ps))]
    · exact ih a imp v (fun q hq => hps q (List.mem_cons_of_mem p hq))

/-- Every candidate pair has distinct (indeed increasing) components. -/
theorem allPairs_lt {n : Nat} {p : Nat × Nat} (hp : p ∈ allPairs n) : p.1 < p.2 := by
  simp only [allPairs, List.mem_flatMap, List.mem_map, List.mem_filter,
    List.mem_range, decide_eq_true_eq] at hp
  obtain ⟨i, _, j, ⟨_, hij⟩, hpij⟩ := hp
  rw [← hpij]
  exact hij

/-- The whole refiner loop never changes the student-id column. -/
theorem refineLoop_map_fst (f : Assignment → ℚ) :
    ∀ (fuel seed : Nat) (a : Assignment),
      (refineLoop f fuel seed a).map Prod.fst = a.map Prod.fst := by
  intro fuel
  induction fuel with
  | zero => intro seed a; rfl
  | succ fuel ih =>
    intro seed a
    simp only [refineLoop]
    split
    · rw [ih _ _, tryPairs_map_fst]
    · exact tryPairs_map_fst f _ a false

/-- The whole refiner loop keeps every class's student count. -/
theorem refineLoop_count_snd (f : Assignment → ℚ) :
    ∀ (fuel seed : Nat) (a : Assignment) (v : Nat),
      ((refineLoop f fuel seed a).map Prod.snd).count v = (a.map Prod.snd).count v := by
  intro fuel
  induction fuel with
  | zero => intro seed a v; rfl
  | succ fuel ih =>
    intro seed a v
    simp only [refineLoop]
    split
    · rw [ih _ _ _, tryPairs_count_snd f _ a false v
        (fun p hp => Nat.ne_of_lt (allPairs_lt hp))]
    · exact tryPairs_count_snd f _ a false v (fun p hp => Nat.ne_of_lt (allPairs_lt hp))

/-! ## Seeder invariants -/

/-- Total remaining capacity of the active classes. -/
def capsSum (cs : List ClassSlot) : Nat := (cs.map ClassSlot.cap).sum

/-- Remaining capacity held for class index `j` by the active classes. -/
def capOf (j : Nat) (cs : List ClassSlot) : Nat :=
  ((cs.filter (fun c => c.idx == j)).map ClassSlot.cap).sum

theorem capOf_cons (j : Nat) (c : ClassSlot) (cs : List ClassSlot) :
    capOf j (c :: cs) = (if c.idx = j then c.cap else 0) + capOf j cs := by
  simp only [capOf, List.filter_cons]
  split
  · rename_i hb
    rw [if_pos (beq_iff_eq.mp hb)]
    simp
  · rename_i hb
    rw [if_neg (by simpa using hb)]
    simp

theorem capOf_reverse (j : Nat) (cs : List ClassSlot) :
    capOf j cs.reverse = capOf j cs := by
  simp only [capOf, List.filter_reverse, List.map_reverse, List.sum_reverse]

theorem capsSum_reverse (cs : List ClassSlot) : capsSum cs.reverse = capsSum cs := by
  simp only [capsSum, List.map_reverse, List.sum_reverse]

theorem capsSum_ge_length (cs : List ClassSlot) (hpos : ∀ c ∈ cs, 0 < c.cap) :
    cs.length ≤ capsSum cs := by
  induction cs with
  | nil => simp [capsSum]
  | cons c cs ih =>
    have h1 : 0 < c.cap := hpos c (List.mem_cons_self c cs)
    have h2 := ih (fun c' hc' => hpos c' (List.mem_cons_of_mem c hc'))
    simp only [capsSum, List.map_cons, List.sum_cons, List.length_cons] at h2 ⊢
    omega

theorem capsSum_eq_zero (cs : List ClassSlot) (hpos : ∀ c ∈ cs, 0 < c.cap)
    (h : capsSum cs = 0) : cs = [] := by
  have := capsSum_ge_length cs hpos
  exact List.length_eq_zero.mp (by omega)

/-- One pass assigns exactly the first `min |students| |classes|` students,
in order. -/
theorem seedPass_map_fst : ∀ (ss : List StudentRecord) (cs : List ClassSlot),
    (seedPass ss cs).1.map Prod.fst = (ss.take cs.length).map StudentRecord.id := by
  intro ss
  induction ss with
  | nil => intro cs; simp [seedPass]
  | cons s ss ih =>
    intro cs
    cases cs with
    | nil => simp [seedPass]
    | cons c cs => simp [seedPass, List.take_succ_cons, ih]

/-- One pass leaves exactly the students after the assigned portion. -/
theorem seedPass_rest : ∀ (ss : List StudentRecord) (cs : List ClassSlot),
    (seedPass ss cs).2.1 = ss.drop cs.length := by
  intro ss
  induction ss with
  | nil => intro cs; simp [seedPass]
  | cons s ss ih =>
    intro cs
    cases cs with
    | nil => simp [seedPass]
    | cons c cs => simp [seedPass, List.drop_succ_cons, ih]

/-- Surviving active classes keep a positive remaining capacity. -/
theorem seedPass_caps_pos : ∀ (ss : List StudentRecord) (cs : List ClassSlot),
    (∀ c ∈ cs, 0 < c.cap) → ∀ c' ∈ (seedPass ss cs).2.2, 0 < c'.cap := by
  intro ss
  induction ss with
  | nil => intro cs hpos; simpa [seedPass] using hpos
  | cons s ss ih =>
    intro cs hpos
    cases cs with
    | nil => simp [seedPass]
    | cons c cs =>
      simp only [seedPass]
      intro c' hc'
      split at hc'
      · exact ih cs (fun x hx => hpos x (List.mem_cons_of_mem c hx)) c' hc'
      · rename_i hcap
        rcases List.mem_cons.mp hc' with hc' | hc'
        · subst hc'; simp; omega
        · exact ih cs (fun x hx => hpos x (List.mem_cons_of_mem c hx)) c' hc'

/-- Capacity accounting per class: the pass turns capacity into assignments
one-for-one. -/
theorem seedPass_capOf : ∀ (ss : List StudentRecord) (cs : List ClassSlot),
    (∀ c ∈ cs, 0 < c.cap) → ∀ j,
      capOf j cs = ((seedPass ss cs).1.map Prod.snd).count j + capOf j (seedPass ss cs).2.2 := by
  intro ss
  induction ss with
  | nil => intro cs _ j; simp [seedPass]
  | cons s ss ih =>
    intro cs hpos j
    cases cs with
    | nil => simp [seedPass, capOf]
    | cons c cs =>
      have hcap : 0 < c.cap := hpos c (List.mem_cons_self c cs)
      have htail := ih cs (fun x hx => hpos x (List.mem_cons_of_mem c hx)) j
      simp only [seedPass, List.map_cons, List.count_cons]
      rw [capOf_cons]
      by_cases hcap1 : c.cap ≤ 1
      · rw [if_pos hcap1]
        by_cases hj : c.idx = j
        · rw [if_pos hj, if_pos (by simpa using hj : (c.idx == j) = true)]
          omega
        · rw [if_neg hj, if_neg (by simpa using hj : ¬ (c.idx == j) = true)]
          omega
      · rw [if_neg hcap1, capOf_cons]
        dsimp only
        by_cases hj : c.idx = j
        · rw [if_pos hj, if_pos hj, if_pos (by simpa using hj : (c.idx == j) = true)]
          omega
        · rw [if_neg hj, if_neg hj, if_neg (by simpa using hj : ¬ (c.idx == j) = true)]
          omega

/-- Total capacity accounting for one pass. -/
theorem seedPass_capsSum : ∀ (ss : List StudentRecord) (cs : List ClassSlot),
    (∀ c ∈ cs, 0 < c.cap) →
    capsSum (seedPass ss cs).2.2 = capsSum cs - min ss.length cs.length := by
  intro ss
  induction ss with
  | nil => intro cs _; simp [seedPass]
  | cons s ss ih =>
    intro cs hpos
    cases cs with
    | nil => simp [seedPass, capsSum]
    | cons c cs =>
      have hcap : 0 < c.cap := hpos c (List.mem_cons_self c cs)
      have hlen := capsSum_ge_length cs (fun x hx => hpos x (List.mem_cons_of_mem c hx))
      have htail := ih cs (fun x hx => hpos x (List.mem_cons_of_mem c hx))
      simp only [seedPass, List.length_cons]
      split
      · rename_i hle
        simp only [capsSum, List.map_cons, List.sum_cons] at *
        omega
      · rename_i hgt
        simp only [capsSum, List.map_cons, List.sum_cons] at *
        omega

/-- Main seeding invariant: when the total active capacity matches the number
of students (and every active class has positive capacity), the loop places
every student exactly once, in sorted order, and gives every class index
exactly its capacity's worth of students. -/
theorem seedLoop_spec : ∀ (fuel : Nat) (ss : List StudentRecord) (cs : List ClassSlot),
    (∀ c ∈ cs, 0 < c.cap) → capsSum cs = ss.length → ss.length ≤ fuel →
    (seedLoop fuel ss cs).map Prod.fst = ss.map StudentRecord.id ∧
    ∀ j, ((seedLoop fuel ss cs).map Prod.snd).count j = capOf j cs := by
  intro fuel
  induction fuel with
  | zero =>
    intro ss cs hpos hsum hlen
    have hss : ss = [] := List.length_eq_zero.mp (by omega)
    subst hss
    have hcs : cs = [] := capsSum_eq_zero cs hpos (by simpa using hsum)
    subst hcs
    exact ⟨rfl, fun j => rfl⟩
  | succ fuel ih =>
    intro ss cs hpos hsum hlen
    cases ss with
    | nil =>
      have hcs : cs = [] := capsSum_eq_zero cs hpos (by simpa using hsum)
      subst hcs
      exact ⟨rfl, fun j => rfl⟩
    | cons s ss =>
      cases cs with
      | nil => simp [capsSum] at hsum
      | cons c cs =>
        have hpos' : ∀ c' ∈ (seedPass (s :: ss) (c :: cs)).2.2.reverse, 0 < c'.cap := by
          intro c' hc'
          exact seedPass_caps_pos (s :: ss) (c :: cs) hpos c' (List.mem_reverse.mp hc')
        have hrest := seedPass_rest (s :: ss) (c :: cs)
        have hlen1 : (seedPass (s :: ss) (c :: cs)).2.1.length =
            (s :: ss).length - (c :: cs).length := by
          rw [hrest, List.length_drop]
        have hsum' : capsSum (seedPass (s :: ss) (c :: cs)).2.2.reverse =
            (seedPass (s :: ss) (c :: cs)).2.1.length := by
          rw [capsSum_reverse, seedPass_capsSum (s :: ss) (c :: cs) hpos, hlen1]
          have h1 : 0 < (c :: cs).length := by simp
          omega
        have hlen' : (seedPass (s :: ss) (c :: cs)).2.1.length ≤ fuel := by
          rw [hlen1]
          simp only [List.length_cons] at hlen ⊢
          omega
        obtain ⟨ihfst, ihsnd⟩ :=
          ih (seedPass (s :: ss) (c :: cs)).2.1 (seedPass (s :: ss) (c :: cs)).2.2.reverse
            hpos' hsum' hlen'
        constructor
        · show ((seedPass (s :: ss) (c :: cs)).1 ++
            seedLoop fuel (seedPass (s :: ss) (c :: cs)).2.1
              (seedPass (s :: ss) (c :: cs)).2.2.reverse).map Prod.fst = _
          rw [List.map_append, ihfst, seedPass_map_fst, hrest, ← List.map_append,
            List.take_append_drop]
        · intro j
          show (((seedPass (s :: ss) (c :: cs)).1 ++
            seedLoop fuel (seedPass (s :: ss) (c :: cs)).2.1
              (seedPass (s :: ss) (c :: cs)).2.2.reverse).map Prod.snd).count j = _
          rw [List.map_append, List.count_append, ihsnd j, capOf_reverse,
            seedPass_capOf (s :: ss) (c :: cs) hpos j]

/-- Total capacity of the seeding slots is the total of the plan sizes. -/
theorem capsSum_activeSlots (plans : List ClassPlan) :
    capsSum (activeSlots plans) = (plans.map ClassPlan.size).sum := by
  induction plans with
  | nil => rfl
  | cons p rest ih =>
    simp only [activeSlots, List.filter_cons] at ih ⊢
    split
    · rename_i hb
      simp only [List.map_cons, List.sum_cons, capsSum] at ih ⊢
      omega
    · rename_i hb
      have hz : p.size = 0 := by simpa using hb
      simp only [List.map_cons, List.sum_cons, ih, hz]
      omega

/-- Every seeding slot has positive capacity. -/
theorem activeSlots_pos (plans : List ClassPlan) :
    ∀ c ∈ activeSlots plans, 0 < c.cap := by
  intro c hc
  simp only [activeSlots, List.mem_map, List.mem_filter] at hc
  obtain ⟨p, ⟨_, hp⟩, hcp⟩ := hc
  rw [← hcp]
  exact Nat.pos_of_ne_zero (by simpa using hp)

/-- Slot indices come from the plan list. -/
theorem activeSlots_idx_mem (plans : List ClassPlan) :
    ∀ c ∈ activeSlots plans, c.idx ∈ plans.map ClassPlan.idx := by
  intro c hc
  simp only [activeSlots, List.mem_map, List.mem_filter] at hc
  obtain ⟨p, ⟨hp, _⟩, hcp⟩ := hc
  rw [← hcp]
  exact List.mem_map.mpr ⟨p, hp, rfl⟩

theorem capOf_eq_zero (j : Nat) (cs : List ClassSlot) (h : ∀ c ∈ cs, c.idx ≠ j) :
    capOf j cs = 0 := by
  unfold capOf
  have : cs.filter (fun c => c.idx == j) = [] :=
    List.filter_eq_nil_iff.mpr (fun c hc => by simpa using h c hc)
  rw [this]
  rfl

/-- With distinct class indices, the seeding capacity reserved for a plan's
index is exactly that plan's target size. -/
theorem activeSlots_cons (q : ClassPlan) (rest : List ClassPlan) :
    activeSlots (q :: rest) =
      if (q.size != 0) = true then ⟨q.idx, q.size⟩ :: activeSlots rest
      else activeSlots rest := by
  unfold activeSlots
  rw [List.filter_cons]
  split
  · rw [List.map_cons]
  · rfl

/-- With distinct class indices, the seeding capacity reserved for a plan's
index is exactly that plan's target size. -/
theorem capOf_activeSlots (plans : List ClassPlan)
    (hidx : (plans.map ClassPlan.idx).Nodup) :
    ∀ p ∈ plans, capOf p.idx (activeSlots plans) = p.size := by
  induction plans with
  | nil => intro p hp; simp at hp
  | cons q rest ih =>
    have hidx' : q.idx ∉ rest.map ClassPlan.idx ∧ (rest.map ClassPlan.idx).Nodup := by
      rw [List.map_cons, List.nodup_cons] at hidx
      exact hidx
    have hq := hidx'.1
    have hrest := hidx'.2
    intro p hp
    rcases List.mem_cons.mp hp with hp | hp
    · subst hp
      have hz : capOf p.idx (activeSlots rest) = 0 := by
        apply capOf_eq_zero
        intro c hc hcj
        exact hq (hcj ▸ activeSlots_idx_mem rest c hc)
      rw [activeSlots_cons]
      by_cases hqs : p.size = 0
      · rw [if_neg (by simp [hqs]), hz, hqs]
      · rw [if_pos (by simpa using hqs), capOf_cons]
        dsimp only
        rw [if_pos rfl, hz]
        omega
    · have hne : q.idx ≠ p.idx := by
        intro he
        exact hq (he ▸ List.mem_map.mpr ⟨p, hp, rfl⟩)
      rw [activeSlots_cons]
      by_cases hqs : q.size = 0
      · rw [if_neg (by simp [hqs])]
        exact ih hrest p hp
      · rw [if_pos (by simpa using hqs), capOf_cons]
        dsimp only
        rw [if_neg hne]
        have := ih hrest p hp
        omega

/-- The seeded assignment lists exactly the sorted roster's ids, in placement
order. -/
theorem snakeSeeder_map_fst (students : List StudentRecord) (plans : List ClassPlan)
    (hsum : (plans.map ClassPlan.size).sum = students.length) :
    (snakeSeeder students plans).map Prod.fst =
      (sortStudents students).map StudentRecord.id := by
  unfold snakeSeeder
  have hlen : (sortStudents students).length = students.length :=
    List.length_mergeSort students
  exact (seedLoop_spec students.length (sortStudents students) (activeSlots plans)
    (activeSlots_pos plans)
    (by rw [capsSum_activeSlots, hsum, hlen]) (by omega)).1

/-- The seeded assignment gives every plan exactly its target size. -/
theorem snakeSeeder_count_snd (students : List StudentRecord) (plans : List ClassPlan)
    (hsum : (plans.map ClassPlan.size).sum = students.length)
    (hidx : (plans.map ClassPlan.idx).Nodup) :
    ∀ p ∈ plans, ((snakeSeeder students plans).map Prod.snd).count p.idx = p.size := by
  intro p hp
  unfold snakeSeeder
  have hlen : (sortStudents students).length = students.length :=
    List.length_mergeSort students
  rw [(seedLoop_spec students.length (sortStudents students) (activeSlots plans)
    (activeSlots_pos plans)
    (by rw [capsSum_activeSlots, hsum, hlen]) (by omega)).2 p.idx]
  exact capOf_activeSlots plans hidx p hp

/-! ## Claim C2 -/

/-- C2: provided the class plans cover the grade exactly (targets sum to the
student count, ids and class indices are distinct), the final assignment of
the SnakeSeeder → BalanceRefiner pipeline contains every student id of the
grade exactly once, and maps to every class plan exactly its target size of
students; the class counts already hold for the seeded assignment, and the
refiner preserves them at every step because it only swaps. -/
theorem assignment_partition (students : List StudentRecord) (plans : List ClassPlan)
    (fuel seed : Nat)
    (hsum : (plans.map ClassPlan.size).sum = students.length)
    (hids : (students.map StudentRecord.id).Nodup)
    (hidx : (plans.map ClassPlan.idx).Nodup) :
    (∀ s ∈ students,
      ((assignPipeline students plans fuel seed).map Prod.fst).count s.id = 1) ∧
    (∀ p ∈ plans,
      ((assignPipeline students plans fuel seed).map Prod.snd).count p.idx = p.size) ∧
    (∀ p ∈ plans,
      ((snakeSeeder students plans).map Prod.snd).count p.idx = p.size) := by
  have hsort : (sortStudents students).Perm students :=
    List.mergeSort_perm students seedLE
  refine ⟨?_, ?_, snakeSeeder_count_snd students plans hsum hidx⟩
  · intro s hs
    show (((refineLoop (balanceScorer students plans) fuel seed
      (snakeSeeder students plans))).map Prod.fst).count s.id = 1
    rw [refineLoop_map_fst, snakeSeeder_map_fst students plans hsum]
    rw [(hsort.map StudentRecord.id).count_eq s.id]
    exact List.count_eq_one_of_mem hids (List.mem_map.mpr ⟨s, hs, rfl⟩)
  · intro p hp
    show (((refineLoop (balanceScorer students plans) fuel seed
      (snakeSeeder students plans))).map Prod.snd).count p.idx = p.size
    rw [refineLoop_count_snd]
    exact snakeSeeder_count_snd students plans hsum hidx p hp

/-- A two-student, two-class sample grade used as a concrete witness. -/
def sampleStudents : List StudentRecord :=
  [⟨1, "a", "g1", 1, [("math", 90)]⟩, ⟨2, "b", "g1", 2, [("math", 70)]⟩]

/-- Two singleton class plans for the sample grade. -/
def samplePlans : List ClassPlan :=
  [⟨"g1", 1, 1, true⟩, ⟨"g1", 2, 1, true⟩]

/-- C2 witness: the sample grade satisfies all hypotheses, and the seeded
class counts conclusion is obtained from the theorem. -/
theorem assignment_partition_witness :
    ((samplePlans.map ClassPlan.size).sum = sampleStudents.length ∧
     (sampleStudents.map StudentRecord.id).Nodup ∧
     (samplePlans.map ClassPlan.idx).Nodup) ∧
    (∀ p ∈ samplePlans,
      ((snakeSeeder sampleStudents samplePlans).map Prod.snd).count p.idx = p.size) :=
  ⟨⟨by decide, by decide, by decide⟩,
   (assignment_partition sampleStudents samplePlans 1 0
      (by decide) (by decide) (by decide)).2.2⟩

/-! ## Claims C8, C9, C10 -/

/-- C8: after a folder selection, `selectedFiles` holds exactly those chosen
files whose lowercased name ends in `.xlsx` or `.xls` (same order, no
additions); when no chosen file qualifies, `selectedFiles` is empty and the
upload button is not revealed. -/
theorem handleFolderSelect_filters (files : List (List Char)) :
    (∀ f, f ∈ (handleFolderSelect files).selectedFiles ↔
        f ∈ files ∧ (List.isSuffixOf ['.', 'x', 'l', 's', 'x'] (f.map Char.toLower) = true ∨
                     List.isSuffixOf ['.', 'x', 'l', 's'] (f.map Char.toLower) = true)) ∧
    ((handleFolderSelect files).selectedFiles = files.filter isExcelName) ∧
    (files.filter isExcelName = [] →
        (handleFolderSelect files).selectedFiles = [] ∧
        (handleFolderSelect files).uploadBtnShown = false) := by
  have hsel : (handleFolderSelect files).selectedFiles = files.filter isExcelName := by
    unfold handleFolderSelect
    split <;> rfl
  refine ⟨?_, hsel, ?_⟩
  · intro f
    rw [hsel, List.mem_filter]
    unfold isExcelName
    rw [Bool.or_eq_true]
  · intro hemp
    have h0 : (files.filter isExcelName).length = 0 := by rw [hemp]; rfl
    unfold handleFolderSelect
    rw [if_pos h0]
    exact ⟨hemp, rfl⟩

/-- C8 witness: a selection containing no Excel file. -/
theorem handleFolderSelect_filters_witness :
    ([['b', '.', 't', 'x', 't']].filter isExcelName = []) ∧
    (handleFolderSelect [['b', '.', 't', 'x', 't']]).selectedFiles = [] ∧
    (handleFolderSelect [['b', '.', 't', 'x', 't']]).uploadBtnShown = false :=
  ⟨by decide, (handleFolderSelect_filters [['b', '.', 't', 'x', 't']]).2.2 (by decide)⟩

/-- C9: for every id in the section list, `showSection` turns exactly that
section's display to `"block"` — the sections displayed as `"block"` are
exactly `[id]` — and sets every other listed section's display to `"none"`. -/
theorem showSection_exclusive (id : String) (hid : id ∈ sections) :
    ((showSection id).filter (fun p => p.2 == "block")).map Prod.fst = [id] ∧
    ∀ s ∈ sections, s ≠ id → (s, "none") ∈ showSection id := by
  simp only [sections, List.mem_cons, List.mem_singleton, List.not_mem_nil, or_false] at hid
  rcases hid with rfl | rfl | rfl | rfl | rfl <;>
    refine ⟨by decide, ?_⟩ <;>
    · intro s hs hsne
      simp only [sections, List.mem_cons, List.mem_singleton, List.not_mem_nil,
        or_false] at hs
      rcases hs with rfl | rfl | rfl | rfl | rfl <;>
        first
        | exact absurd rfl hsne
        | decide

/-- C9 witness: showing the configuration section. -/
theorem showSection_exclusive_witness :
    (("configSection" : String) ∈ sections) ∧
    ((showSection "configSection").filter (fun p => p.2 == "block")).map Prod.fst =
      ["configSection"] :=
  ⟨by decide, (showSection_exclusive "configSection" (by decide)).1⟩

/-- C10: with no live session id (`currentSessionId = null`), both download
handlers only alert and never navigate (no download request is issued). -/
theorem download_requires_session (sid : Option String) (filename : String)
    (h : sid = none) :
    downloadFile sid filename = .alertOnly ∧ handleDownloadAll sid = .alertOnly := by
  subst h
  exact ⟨rfl, rfl⟩

/-- C10 witness: the null session id with a concrete file name. -/
theorem download_requires_session_witness :
    downloadFile none "result.xlsx" = .alertOnly ∧
    handleDownloadAll none = .alertOnly :=
  download_requires_session none "result.xlsx" rfl
